import Mathlib

/-!
Verification of the recipe-engine core against its specification.

Each namespace embeds one subsystem of the engine as executable Lean
definitions translated from the Python source; the theorems at the end of
the file settle the specified properties about them.

  * `Subproc` — argv resolution and process waiting
    (recipe_engine/internal/step_runner/subproc.py).
  * `DeferM` — step failures and the defer-results aggregation machinery
    (recipe_engine/recipe_api.py).
  * `ContextM` — the context stack (recipe_modules/context/api.py).
  * `TestReport` — the test driver report and coverage gate
    (recipe_engine/internal/commands/test/report.py and run_train.py).
  * `PathsM` — PathsClient.find_longest_prefix
    (recipe_engine/recipe_api.py).
-/

/-- Model of a Python dict lookup `d.get(k)` over an insertion-ordered
association list with unique keys (the representation of a Python dict). -/
def dictGet {α : Type} : List (String × α) → String → Option α
  | [], _ => none
  | (k1, v1) :: rest, k => if k1 = k then some v1 else dictGet rest k

/-- Model of `d.get(k, default)`. -/
def dictGetD {α : Type} (d : List (String × α)) (k : String) (v0 : α) : α :=
  (dictGet d k).getD v0

/-- Model of a Python dict store `d[k] = v`: overwriting keeps the entry
position, a new key is appended at the end (insertion order). -/
def dictSet {α : Type} : List (String × α) → String → α → List (String × α)
  | [], k, v => [(k, v)]
  | (k1, v1) :: rest, k, v =>
    if k1 = k then (k1, v) :: rest else (k1, v1) :: dictSet rest k v

/-- Keys of an association list are pairwise distinct (always true of a
list obtained from a Python dict). -/
def keysNodup {α : Type} (d : List (String × α)) : Prop :=
  (d.map Prod.fst).Nodup

/-- Model of Python `repr` on the simple names and values appearing here:
the string wrapped in single quotes (adequate for strings without quotes
or escapes). -/
def pyRepr (s : String) : String := "\x27" ++ s ++ "\x27"

/-- Modelled from the spec: `ExecutionResult` (recipe_engine/step_data.py
is not under src/) — retcode (int|none), had_timeout (bool),
was_cancelled (bool); a freshly constructed `ExecutionResult()` has no
retcode and false flags. -/
structure ExecutionResult where
  retcode : Option Int := none
  had_timeout : Bool := false
  was_cancelled : Bool := false
deriving Repr, DecidableEq

namespace Subproc

/-- Host OS primitives consumed by `SubprocessStepRunner`. The Python code
calls `os.path.isabs`, `os.path.sep`, `os.path.join`, `os.path.splitext`
and the pair `os.path.isfile` + `os.access(path, os.X_OK)`; these are
external inputs of the embedding, so they are fields of this structure and
the theorems quantify over them. `hasExt base` models
`os.path.splitext(base)[1] != ""` and `is_executable_file` models
`SubprocessStepRunner._is_executable_file` (isfile and +x access). -/
structure OsEnv where
  is_windows : Bool
  isabs : String → Bool
  sep : String
  join : String → String → String
  hasExt : String → Bool
  is_executable_file : String → Bool

/-- Model of `SubprocessStepRunner._PATH_EXTS`:
`(".exe", ".bat") if sys.platform == "win32" else ("",)`. -/
def PATH_EXTS (os : OsEnv) : List String :=
  if os.is_windows then [".exe", ".bat"] else [""]

/-- Model of `SubprocessStepRunner._resolve_base_path` (subproc.py:75-111):
if the base path has an extension it alone is checked for
existence+execute permission; otherwise each platform extension is
appended and tried in order; the first hit is returned. -/
def resolve_base_path (os : OsEnv) (base_path : String) : Option String :=
  if os.hasExt base_path then
    if os.is_executable_file base_path then some base_path else none
  else
    (PATH_EXTS os).findSome? fun ext =>
      let candidate := base_path ++ ext
      if os.is_executable_file candidate then some candidate else none

/-- Model of `os.path.sep in cmd0`: substring containment, via
`String.splitOn` (the separator occurs in the string iff splitting on it
yields more than one piece). -/
def contains_sep (s pat : String) : Bool :=
  (s.splitOn pat).length != 1

/-- Model of `SubprocessStepRunner.resolve_cmd0` (subproc.py:113-154):
absolute commands are checked as-is; commands containing the OS path
separator are resolved relative to cwd; everything else is searched in
each PATH entry in order. -/
def resolve_cmd0 (os : OsEnv) (cmd0 cwd : String) (paths : List String) :
    Option String :=
  if os.isabs cmd0 then
    resolve_base_path os cmd0
  else if contains_sep cmd0 os.sep then
    resolve_base_path os (os.join cwd cmd0)
  else
    paths.findSome? fun p => resolve_base_path os (os.join p cmd0)

/-- Candidate expansion per base path, written from the specification
text: a base lacking an extension expands to `.exe` then `.bat` on
Windows and to the exact name on POSIX; a base with an extension stands
alone. -/
def ext_cands (os : OsEnv) (base : String) : List String :=
  if os.hasExt base then [base]
  else if os.is_windows then [base ++ ".exe", base ++ ".bat"]
  else [base ++ ""]

/-- Candidate list written from the specification text: the base path is
cmd0 itself when absolute, cwd-relative when cmd0 contains the separator,
and each PATH entry joined with cmd0 otherwise. The spec says the first
candidate that is a regular file with execute permission is returned. -/
def spec_candidates (os : OsEnv) (cmd0 cwd : String) (paths : List String) :
    List String :=
  if os.isabs cmd0 then ext_cands os cmd0
  else if contains_sep cmd0 os.sep then ext_cands os (os.join cwd cmd0)
  else (paths.map fun p => os.join p cmd0).flatMap (ext_cands os)

/-- Outcome of the gevent-blocking wait in `_wait_proc`
(subproc.py:270-319): either `proc.wait(timeout)` returns with the process
finished (`proc.poll()` yields a retcode), or the timeout expired
(`proc.poll()` is still None), or the waiting greenlet was killed by the
scheduler (a `GreenletExit` is raised inside the wait). -/
inductive WaitOutcome where
  | completed (retcode : Int)
  | timedOut
  | cancelled
deriving Repr, DecidableEq

/-- Model of `SubprocessStepRunner._wait_proc` (subproc.py:270-319).
`kill_ret` is the value `_kill(proc, gid)` returns when invoked
(subproc.py:454-483: both platform variants end in a blocking
`proc.wait()` and return the retcode). The second component records
whether `_kill` was invoked (the process group was killed). -/
def wait_proc (outcome : WaitOutcome) (kill_ret : Int) :
    ExecutionResult × Bool :=
  match outcome with
  | .completed r => ({ retcode := some r }, false)
  | .timedOut =>
      ({ retcode := some kill_ret, had_timeout := true }, true)
  | .cancelled =>
      ({ retcode := some kill_ret, was_cancelled := true }, true)

end Subproc

namespace DeferM

/-- Model of `StepFailure` (recipe_api.py:353-411), keeping the fields the
claims consult: `name`, the formatted `reason`, and `exc_result` (None
when the `result` passed to the constructor has no `exc_result`
attribute, as is the case for `AggregatedResult`). -/
structure StepFailure where
  name : Option String
  reason : String
  exc_result : Option ExecutionResult
deriving Repr, DecidableEq

/-- Model of `StepFailure.__init__(name, result=step_data)` for a failing
step: `reason = reason_message()` (which is `Step(repr(name))`) plus
` (timeout)` when the execution result had a timeout, otherwise
` (retcode: r)`. -/
def mkStepFailure (name : String) (er : ExecutionResult) : StepFailure :=
  let base := "Step(" ++ pyRepr name ++ ")"
  { name := some name
    reason :=
      if er.had_timeout then base ++ " (timeout)"
      else
        base ++ " (retcode: " ++
          (match er.retcode with
           | some r => toString r
           | none => "None") ++ ")"
    exc_result := some er }

/-- Model of `AggregatedResult` (recipe_api.py:445-479): the successes and
failures captured in a defer scope. Step return values are modelled as
naturals. -/
structure AggregatedResult where
  successes : List Nat
  failures : List StepFailure
deriving Repr, DecidableEq

/-- Model of `AggregatedStepFailure.__init__` (recipe_api.py:432-441):
`StepFailure.__init__("Aggregate step failure.", result=agg)` with the
overridden `reason_message`. Because `AggregatedResult` has no
`exc_result` attribute, the `hasattr` check in `StepFailure.__init__`
fails and `exc_result` stays None (so no timeout/retcode suffix is added
and the `had_timeout` property returns None). `all_results` is successes
then failures (recipe_api.py:463-471), so its length is the sum. -/
def mkAggregatedStepFailure (agg : AggregatedResult) : StepFailure :=
  { name := some "Aggregate step failure."
    reason :=
      toString agg.failures.length ++ " out of " ++
        toString (agg.successes.length + agg.failures.length) ++
        " aggregated steps failed: " ++
        String.intercalate ", "
          (agg.failures.map fun f =>
            if f.reason = "" then f.name.getD "" else f.reason)
    exc_result := none }

/-- Model of the `StepFailure.had_timeout` property
(recipe_api.py:393-401): Python None (modelled as `none`) when there is
no `exc_result`, otherwise the boolean from the execution result. -/
def had_timeout_prop (f : StepFailure) : Option Bool :=
  f.exc_result.map ExecutionResult.had_timeout

/-- Model of `_DEFER_CONTEXT_OBJ` (recipe_api.py:500-559): a stack of
`ran_step` flags and a stack of optional aggregated results. The Python
lists append at the tail; here the head of each list is the top of the
stack. The initial state is one frame: no step ran, not aggregating. -/
structure DeferCtx where
  ran_step : List Bool
  aggregated_result : List (Option AggregatedResult)
deriving Repr, DecidableEq

/-- Initial `_DEFER_CONTEXT` state (`[False]` / `[None]`). -/
def initCtx : DeferCtx := ⟨[false], [none]⟩

/-- Model of `mark_ran_step` (`self._ran_step[-1] = True`). -/
def markTop : List Bool → List Bool
  | [] => []
  | _ :: rest => true :: rest

/-- Model of the `aggregated_result` property
(`self._aggregated_result[-1]`). -/
def topAgg (st : DeferCtx) : Option AggregatedResult :=
  st.aggregated_result.headD none

/-- Model of `_DEFER_CONTEXT_OBJ._enter` (push a fresh ran-step flag and
an aggregation slot). -/
def pushFrame (agg : Option AggregatedResult) (st : DeferCtx) : DeferCtx :=
  ⟨false :: st.ran_step, agg :: st.aggregated_result⟩

/-- Model of `_DEFER_CONTEXT_OBJ._exit` (pop both stacks). -/
def popFrame (st : DeferCtx) : DeferCtx :=
  ⟨st.ran_step.tail, st.aggregated_result.tail⟩

/-- Model of `agg.add_success(result)`: the aggregate being the current
top of the stack after the sub-scope was popped, append to its successes.
Python mutates the shared `AggregatedResult` object; here the entry in
the stack is updated in place. -/
def addSuccessTop (v : Nat) (st : DeferCtx) : DeferCtx :=
  match st.aggregated_result with
  | some A :: rest =>
      ⟨st.ran_step, some { A with successes := A.successes ++ [v] } :: rest⟩
  | _ => st

/-- Model of `agg.add_failure(exception)` (see `addSuccessTop`). -/
def addFailureTop (f : StepFailure) (st : DeferCtx) : DeferCtx :=
  match st.aggregated_result with
  | some A :: rest =>
      ⟨st.ran_step, some { A with failures := A.failures ++ [f] } :: rest⟩
  | _ => st

/-- Result of calling a function wrapped by `infer_composite_step` from
recipe code: either the plain return value (not deferring, or the
function was not step-like), or a `DeferredResult` holding a value or a
captured failure (recipe_api.py:482-497). -/
inductive CallRes where
  | plain (v : Nat)
  | deferredOk (v : Nat)
  | deferredErr (f : StepFailure)

/-- Exceptions propagating through the embedded recipe code: a
`StepFailure` (catchable by the defer machinery) or any non-StepFailure
exception (e.g. the `AssertionError` from nesting `defer_results`), which
the machinery never catches. -/
inductive PyErr where
  | stepFailure (f : StepFailure)
  | otherError
deriving Repr, DecidableEq

/-- Deep embedding of recipe code as seen by the defer machinery:
`ret` returns a value; `runStep` marks that a step ran
(`mark_ran_step`, called by the step module) and continues; `raiseStep`
raises a `StepFailure` for a failed step with the given name and
execution result (the constructor calls `mark_ran_step`,
recipe_api.py:366-368); `callWrapped body k` calls a method wrapped by
`infer_composite_step` (recipe_api.py:582-624) and continues with `k`
applied to the call result; `deferScope body k` is
`with defer_results(): body` followed by `k` (recipe_api.py:663-692). -/
inductive Script where
  | ret (v : Nat)
  | runStep (rest : Script)
  | raiseStep (name : String) (er : ExecutionResult)
  | callWrapped (body : Script) (k : CallRes → Script)
  | deferScope (body : Script) (k : Script)

/-- Interpreter for `Script` over the defer-context state, translated
from `infer_composite_step._inner` (recipe_api.py:601-623) and
`defer_results` (recipe_api.py:663-692). -/
def exec : Script → DeferCtx → DeferCtx × Except PyErr Nat
  | .ret v, st => (st, .ok v)
  | .runStep rest, st => exec rest ⟨markTop st.ran_step, st.aggregated_result⟩
  | .raiseStep name er, st =>
      (⟨markTop st.ran_step, st.aggregated_result⟩,
       .error (.stepFailure (mkStepFailure name er)))
  | .callWrapped body k, st =>
      match topAgg st with
      | none =>
          -- not deferring: run the function normally
          match exec body st with
          | (st1, .ok v) => exec (k (.plain v)) st1
          | (st1, .error e) => (st1, .error e)
      | some _ =>
          -- begin_normal sub-scope around the body
          match exec body (pushFrame none st) with
          | (st2, .ok v) =>
              let ran := st2.ran_step.headD false
              let st3 := popFrame st2
              if ran then exec (k (.deferredOk v)) (addSuccessTop v st3)
              else exec (k (.plain v)) st3
          | (st2, .error (.stepFailure f)) =>
              exec (k (.deferredErr f)) (addFailureTop f (popFrame st2))
          | (st2, .error .otherError) => (popFrame st2, .error .otherError)
  | .deferScope body k, st =>
      match topAgg st with
      | some _ =>
          -- assert: may not nest defer_results (AssertionError)
          (st, .error .otherError)
      | none =>
          match exec body (pushFrame (some ⟨[], []⟩) st) with
          | (st2, .ok _) =>
              let agg := topAgg st2
              let st3 := popFrame st2
              match agg with
              | some A =>
                  if A.failures.isEmpty then exec k st3
                  else
                    -- raise AggregatedStepFailure(agg): the StepFailure
                    -- constructor calls mark_ran_step (recipe_api.py:366-368)
                    -- after begin_aggregate popped its frame, so the mark
                    -- lands on the outer frame
                    (⟨markTop st3.ran_step, st3.aggregated_result⟩,
                     .error (.stepFailure (mkAggregatedStepFailure A)))
              | none => exec k st3
          | (st2, .error e) => (popFrame st2, .error e)

/-- A body that runs `n` steps and then continues (used to quantify over
step-like and pure bodies). -/
def steps : Nat → Script → Script
  | 0, s => s
  | n + 1, s => .runStep (steps n s)

/-- Scenario S6 of the spec: a defer_results scope deferring two failing
step calls, A with retcode 1 and B with retcode 2, neither timed out. -/
def s6Script : Script :=
  .deferScope
    (.callWrapped (.raiseStep "A" ⟨some 1, false, false⟩) fun _ =>
      .callWrapped (.raiseStep "B" ⟨some 2, false, false⟩) fun _ => .ret 0)
    (.ret 0)

/-- Variant of scenario S6 in which step B timed out (its execution
result has had_timeout set). -/
def s6TimeoutScript : Script :=
  .deferScope
    (.callWrapped (.raiseStep "A" ⟨some 1, false, false⟩) fun _ =>
      .callWrapped (.raiseStep "B" ⟨some 2, true, false⟩) fun _ => .ret 0)
    (.ret 0)

/-- The aggregate failure the engine raises for `s6Script`. -/
def s6Failure : StepFailure :=
  { name := some "Aggregate step failure."
    reason := "2 out of 2 aggregated steps failed: " ++
      "Step(\x27A\x27) (retcode: 1), Step(\x27B\x27) (retcode: 2)"
    exc_result := none }

/-- The aggregate failure the engine raises for `s6TimeoutScript`. -/
def s6TimeoutFailure : StepFailure :=
  { name := some "Aggregate step failure."
    reason := "2 out of 2 aggregated steps failed: " ++
      "Step(\x27A\x27) (retcode: 1), Step(\x27B\x27) (timeout)"
    exc_result := none }

end DeferM

namespace ContextM

/-- Scanner accepting exactly the `%`-format strings that format without
an exception against a `collections.defaultdict(str)` mapping, as in the
validation in `ContextApi.__call__` (context/api.py:137-150). This models
the CPython 2 `str.__mod__` parser: `text` is outside any conversion;
`specStart` follows a `%`; `key d` is inside a parenthesized mapping key
at nesting depth `d`; `spec hasKey` is after the (optional) key. A
conversion without a parenthesized key fetches a sequential argument and
fails (the right operand is a mapping); with a key, the defaultdict
yields an empty string, so only `s` and `r` conversions succeed, while
numeric and char conversions (or an unknown conversion letter, a `*`
width, an unterminated key or format) raise. -/
inductive FmtMode where
  | text
  | specStart
  | key (depth : Nat)
  | spec (hasKey : Bool)
  | failed
deriving Repr, DecidableEq

/-- Flag, width, precision and length-modifier characters, which keep the
parser inside the conversion spec. -/
def isSpecCont (c : Char) : Bool := "#- +.0123456789hlL".data.contains c

/-- One step of the format scanner; `failed` (a raised exception) is
absorbing. -/
def fmtStep : FmtMode → Char → FmtMode
  | .failed, _ => .failed
  | .text, c => if c = '%' then .specStart else .text
  | .specStart, c =>
      if c = '(' then .key 1
      else if isSpecCont c then .spec false
      else if c = '%' then .text
      else .failed
  | .key d, c =>
      if c = '(' then .key (d + 1)
      else if c = ')' then
        if d = 1 then .spec true else .key (d - 1)
      else .key d
  | .spec hasKey, c =>
      if isSpecCont c then .spec hasKey
      else if c = '%' then .text
      else if c = 's' ∨ c = 'r' then
        if hasKey then .text else .failed
      else .failed

/-- Runs the format scanner; `true` means formatting succeeds (the scan
never raised and did not end inside an unfinished conversion). -/
def fmtRun (m : FmtMode) (cs : List Char) : Bool :=
  match cs.foldl fmtStep m with
  | .text => true
  | _ => false

/-- Model of the validation expression
`("%(foo)s" + v) % collections.defaultdict(str)` in
`ContextApi.__call__` (context/api.py:147): `true` iff it does not raise. -/
def env_value_format_ok (v : String) : Bool :=
  fmtRun .text ("%(foo)s" ++ v).data

/-- Model of the `ContextApi` stacks (context/api.py:47-54). Paths are
modelled as strings; the cwd stack holds `None` or a path, and the
mapping stacks hold insertion-ordered dicts. The initial state is
`[None]`, `[{}]`, `[{}]`, `[{}]`, `[False]`. -/
structure ContextApi where
  cwd : List (Option String)
  env_prefixes : List (List (String × List String))
  env_suffixes : List (List (String × List String))
  env : List (List (String × Option String))
  infra_step : List Bool
deriving Repr, DecidableEq

/-- Initial `ContextApi` state. -/
def initApi : ContextApi := ⟨[none], [[]], [[]], [[]], [false]⟩

/-- Arguments of one `api.context(...)` call. A `none` field is an absent
keyword argument; dict arguments are insertion-ordered association
lists. -/
structure CallArgs where
  cwd : Option String := none
  env_prefixes : Option (List (String × List String)) := none
  env_suffixes : Option (List (String × List String)) := none
  env : Option (List (String × Option String)) := none
  infra_steps : Option Bool := none

/-- Model of `_push(st, val)` guarded by the presence test: pushes the
value when present, and reports whether a frame was pushed (the Python
code records the pushed stack in `to_pop`). -/
def pushStack {α : Type} (st : List α) (v : Option α) : List α × Bool :=
  match v with
  | some x => (x :: st, true)
  | none => (st, false)

/-- Pops a stack iff a frame was pushed onto it (the `finally` clause
popping every stack recorded in `to_pop`). -/
def popIf {α : Type} (st : List α) (pushed : Bool) : List α :=
  if pushed then st.tail else st

/-- Which stacks this call pushed onto (the `to_pop` bookkeeping). -/
structure PushedFrames where
  cwd : Bool
  pre : Bool
  suf : Bool
  env : Bool
  infra : Bool
deriving Repr, DecidableEq

/-- Model of the env_prefixes merge (context/api.py:109-117): starting
from a copy of the current top, for each key with a non-empty value
sequence, the new values are prepended in front of the already-registered
tuple; empty sequences are skipped. -/
def mergePre (old : List (String × List String))
    (ps : List (String × List String)) : List (String × List String) :=
  ps.foldl
    (fun acc kv =>
      if kv.2.isEmpty then acc
      else dictSet acc kv.1 (kv.2 ++ dictGetD acc kv.1 []))
    old

/-- Model of the env_suffixes merge (context/api.py:119-127): new values
are appended after the already-registered tuple. -/
def mergeSuf (old : List (String × List String))
    (ss : List (String × List String)) : List (String × List String) :=
  ss.foldl
    (fun acc kv =>
      if kv.2.isEmpty then acc
      else dictSet acc kv.1 (dictGetD acc kv.1 [] ++ kv.2))
    old

/-- Model of the env merge loop (context/api.py:129-152): starting from a
copy of the current top, each None value is stored as a deletion and each
string value is validated (raising ValueError on a sequential
interpolation) and stored. -/
def envMerge (acc : List (String × Option String)) :
    List (String × Option String) → Except String (List (String × Option String))
  | [] => .ok acc
  | (k, none) :: rest => envMerge (dictSet acc k none) rest
  | (k, some v) :: rest =>
      if env_value_format_ok v then envMerge (dictSet acc k (some v)) rest
      else
        .error ("Invalid %-formatting parameter in envvar, only %(ENVVAR)s allowed: "
          ++ pyRepr v)

/-- Model of entering `ContextApi.__call__` (context/api.py:96-152): each
present, non-empty argument pushes one merged frame onto its stack; an
invalid env value raises ValueError. The five optional pushes of the
source (cwd, infra_steps, env_prefixes, env_suffixes, env) are recorded
in `PushedFrames` in place of the `to_pop` list. -/
def context_call (api : ContextApi) (args : CallArgs) :
    Except String (ContextApi × PushedFrames) :=
  let cw := pushStack api.cwd (args.cwd.map some)
  let inf := pushStack api.infra_step args.infra_steps
  let pre := pushStack api.env_prefixes
    (match args.env_prefixes with
     | some ps =>
        if 0 < ps.length then some (mergePre (api.env_prefixes.headD []) ps)
        else none
     | none => none)
  let suf := pushStack api.env_suffixes
    (match args.env_suffixes with
     | some ss =>
        if 0 < ss.length then some (mergeSuf (api.env_suffixes.headD []) ss)
        else none
     | none => none)
  match args.env with
  | some e =>
      if 0 < e.length then
        match envMerge (api.env.headD []) e with
        | .ok newEnv =>
            .ok (⟨cw.1, pre.1, suf.1, newEnv :: api.env, inf.1⟩,
                 ⟨cw.2, pre.2, suf.2, true, inf.2⟩)
        | .error msg => .error msg
      else
        .ok (⟨cw.1, pre.1, suf.1, api.env, inf.1⟩,
             ⟨cw.2, pre.2, suf.2, false, inf.2⟩)
  | none =>
      .ok (⟨cw.1, pre.1, suf.1, api.env, inf.1⟩,
           ⟨cw.2, pre.2, suf.2, false, inf.2⟩)

/-- Model of leaving the `with` scope (context/api.py:154-158): the
`finally` clause pops every stack that was pushed, on all exit paths. -/
def context_exit (api : ContextApi) (p : PushedFrames) : ContextApi :=
  ⟨popIf api.cwd p.cwd,
   popIf api.env_prefixes p.pre,
   popIf api.env_suffixes p.suf,
   popIf api.env p.env,
   popIf api.infra_step p.infra⟩

/-- Observable `cwd` property (context/api.py:160-168). -/
def obs_cwd (api : ContextApi) : Option String := api.cwd.headD none

/-- Observable `env_prefixes` property (context/api.py:185-197). -/
def obs_env_prefixes (api : ContextApi) : List (String × List String) :=
  api.env_prefixes.headD []

/-- Observable `env_suffixes` property (context/api.py:199-211). -/
def obs_env_suffixes (api : ContextApi) : List (String × List String) :=
  api.env_suffixes.headD []

/-- Observable `env` property (context/api.py:170-183). -/
def obs_env (api : ContextApi) : List (String × Option String) :=
  api.env.headD []

/-- Observable `infra_step` property (context/api.py:213-219). -/
def obs_infra_step (api : ContextApi) : Bool := api.infra_step.headD false

end ContextM

namespace TestReport

/-- Model of Python `int()` on a float/rational: truncation toward
zero. -/
def pyInt (q : ℚ) : Int := if q < 0 then -((-q).floor) else q.floor

/-- Coverage input of `Reporter.final_report`: whether
`cov.get_data().measured_files()` is non-empty, and the percentage that
`cov.report(...)` returns (writing the missing-line listing into `covf`
as a side effect). -/
structure CovData where
  measured : Bool
  percent : ℚ
deriving DecidableEq

/-- Observable outcome of `Reporter.final_report`. -/
structure FinalReportResult where
  printed_missing : Bool
  coverage_percent : ℚ
  system_exit : Bool
deriving DecidableEq

/-- Model of `Reporter.final_report` (report.py:88-165). `fail` starts
true when the detail buffer is non-empty; when coverage was collected and
measured anything, `coverage_percent` is set and an integer percentage
different from 100 fails the run and prints the missing-line report;
non-empty `uncovered_modules` or `unused_expectation_files` also fail;
a failing run raises SystemExit. -/
def final_report (err_buf_nonempty : Bool) (cov : Option CovData)
    (uncovered_modules unused_expectation_files : List String) :
    FinalReportResult :=
  let covOk := match cov with
    | some c => c.measured
    | none => false
  let pct : ℚ := match cov with
    | some c => if c.measured then c.percent else 0
    | none => 0
  let missing := covOk && decide (pyInt pct ≠ 100)
  let fail := err_buf_nonempty || missing ||
    !uncovered_modules.isEmpty || !unused_expectation_files.isEmpty
  { printed_missing := missing, coverage_percent := pct,
    system_exit := fail }

/-- A per-worker coverage shard: line hits keyed by source file (the
on-disk `coverage.CoverageData` of one `RunnerThread`). -/
def Shard : Type := List (String × List Nat)

/-- Set union of line lists (line sets have no meaningful order). -/
def lineUnion (xs ys : List Nat) : List Nat :=
  xs ++ ys.filter fun y => !xs.contains y

/-- Modelled from the spec: `cov.data.update(thread_data)` of the
external coverage library (run_train.py:160-166) merges a shard into the
accumulated data by per-file union of line sets. -/
def covUpdate (a b : Shard) : Shard :=
  b.foldl (fun acc fl => dictSet acc fl.1 (lineUnion (dictGetD acc fl.1 []) fl.2)) a

/-- The merge loop of run_train.py:160-166: every worker shard is folded
into an initially empty accumulator. -/
def mergeShards (shards : List Shard) : Shard :=
  shards.foldl covUpdate []

/-- Line-hit lookup in a shard (dict semantics). -/
def lines (s : Shard) (f : String) : List Nat := dictGetD s f []

/-- One test case emitted by `gen_tests` as consumed by `_push_tests`:
its name and its expectation file path. -/
structure TestCase where
  name : String
  expect_file : String
deriving Repr, DecidableEq

/-- The ValueError raised by `_push_tests` (run_train.py:72-81) on
duplicate test cases: either two tests with the same name, or two
distinct names mapping to the same expectation file. -/
inductive PushErr where
  | duplicate_name (name : String)
  | duplicate_file (name og expect_file : String)
deriving Repr, DecidableEq

/-- Message of the raised ValueError (run_train.py:75-80). -/
def pushErrMsg : PushErr → String
  | .duplicate_name n => "Emitted test with duplicate name " ++ pyRepr n
  | .duplicate_file n og ef =>
      "Emitted test " ++ pyRepr n ++ " which maps to the same JSON file as "
        ++ pyRepr og ++ ": " ++ pyRepr ef

/-- Model of the `gen_tests` loop of `_push_tests` (run_train.py:64-95)
for one recipe, with no filter active (every test is enqueued):
`test_filenames` maps expectation file to the first test name seen; a
repeated expectation file raises, otherwise the test name is appended to
the description queue. Expectation-directory bookkeeping does not
interact with the duplicate check and is omitted. -/
def push_recipe_tests (test_filenames : List (String × String))
    (queue : List String) : List TestCase → Except PushErr (List String)
  | [] => .ok queue
  | tc :: rest =>
      match dictGet test_filenames tc.expect_file with
      | some og =>
          if og = tc.name then .error (.duplicate_name tc.name)
          else .error (.duplicate_file tc.name og tc.expect_file)
      | none =>
          push_recipe_tests (dictSet test_filenames tc.expect_file tc.name)
            (queue ++ [tc.name]) rest

/-- Model of `_push_tests` over the main repo recipes (run_train.py:48-104)
with no filter: recipes are processed in order and their test
descriptions are enqueued; a ValueError raised for one recipe propagates
(run_train.py:90-95 re-raises), so no later recipe is processed. -/
def push_tests : List (String × List TestCase) →
    Except PushErr (List (String × String))
  | [] => .ok []
  | (rname, tests) :: rest => do
      let q ← push_recipe_tests [] [] tests
      let qs ← push_tests rest
      .ok ((q.map fun t => (rname, t)) ++ qs)

end TestReport

namespace PathsM

/-- Model of `bisect.bisect_left(l, x)` for a sorted list: the number of
entries strictly below `x`, i.e. the leftmost insertion point. String
comparison is the lexicographic order on the character lists (which is
what both Python `<` on str and Lean `<` on String denote). -/
def bisect_left (l : List String) (x : String) : Nat :=
  l.countP fun s => decide (s.data < x.data)

/-- Model of `PathsClient.find_longest_prefix` (recipe_api.py:149-171).
The client stores the sorted `path_strings` and the parallel `paths`
(recipe_api.py:147); here they are one list of pairs, with the opaque
Path values modelled as naturals, and the `(None, None)` return is
`none`. -/
def find_longest_prefix (pairs : List (String × Nat)) (target sep : String) :
    Option (String × Nat) :=
  let strings := pairs.map Prod.fst
  let idx := bisect_left strings target
  match pairs[idx]? with
  | none => none
  | some (sPath, path) =>
      if target = sPath then some (sPath, path)
      else if 0 < idx then
        match pairs[idx - 1]? with
        | none => none
        | some (sPath1, path1) =>
            if (sPath1 ++ sep).data.isPrefixOf target.data then
              some (sPath1, path1)
            else none
      else none

/-- The qualifying condition from the specification: an index entry
equals the target, or is a prefix of the target immediately followed by
the separator. -/
def qualifies (entry target sep : String) : Prop :=
  entry = target ∨ (entry ++ sep).data.isPrefixOf target.data = true

end PathsM

open Subproc DeferM ContextM TestReport PathsM

theorem resolve_base_path_eq_find (os : OsEnv) (base : String) :
    resolve_base_path os base =
      (ext_cands os base).find? os.is_executable_file := by
  unfold resolve_base_path PATH_EXTS ext_cands
  by_cases h : os.hasExt base
  · simp [h, List.find?]
  · by_cases hw : os.is_windows
    · by_cases h1 : os.is_executable_file (base ++ ".exe") <;>
        by_cases h2 : os.is_executable_file (base ++ ".bat") <;>
        simp [h, hw, h1, h2, List.find?, List.findSome?_cons]
    · have he : base ++ "" = base := by simp
      by_cases h1 : os.is_executable_file base <;>
        simp [h, hw, h1, he, List.find?, List.findSome?_cons]

theorem findSome_resolve_eq_find (os : OsEnv) (cmd0 : String)
    (paths : List String) :
    (paths.findSome? fun p => resolve_base_path os (os.join p cmd0)) =
      ((paths.map fun p => os.join p cmd0).flatMap
        (ext_cands os)).find? os.is_executable_file := by
  induction paths with
  | nil => simp
  | cons p rest ih =>
    rw [List.map_cons, List.flatMap_cons, List.find?_append, ← ih,
      ← resolve_base_path_eq_find]
    cases hr : resolve_base_path os (os.join p cmd0) with
    | none => simp [List.findSome?_cons, hr]
    | some c => simp [List.findSome?_cons, hr]

/-- C1: for every cmd0, cwd and PATH entry list, `resolve_cmd0` returns
exactly the first candidate of the candidate list of the spec (an
absolute cmd0 checked as-is; a separator-containing cmd0 resolved
relative to cwd; otherwise each PATH entry in order; a candidate without
an extension expanded to `.exe` then `.bat` on Windows and to the exact
name on POSIX) that is a regular file with execute permission, and
`none` exactly when no candidate qualifies. -/
theorem claim_C1_resolve_cmd0 (os : OsEnv) (cmd0 cwd : String)
    (paths : List String) :
    resolve_cmd0 os cmd0 cwd paths =
      (spec_candidates os cmd0 cwd paths).find? os.is_executable_file ∧
    (resolve_cmd0 os cmd0 cwd paths = none ↔
      ∀ c ∈ spec_candidates os cmd0 cwd paths,
        os.is_executable_file c = false) := by
  have hmain : resolve_cmd0 os cmd0 cwd paths =
      (spec_candidates os cmd0 cwd paths).find? os.is_executable_file := by
    unfold resolve_cmd0 spec_candidates
    by_cases ha : os.isabs cmd0
    · simp [ha, resolve_base_path_eq_find]
    · by_cases hs : contains_sep cmd0 os.sep
      · simp [ha, hs, resolve_base_path_eq_find]
      · simp [ha, hs, findSome_resolve_eq_find]
  refine ⟨hmain, ?_⟩
  rw [hmain, List.find?_eq_none]
  constructor
  · intro h c hc
    simpa using h c hc
  · intro h c hc
    simp [h c hc]

/-- C2: for every wait outcome of the real step runner, `had_timeout` is
set exactly on timeout expiry (with the process group killed and the
retcode being what kill returned), `was_cancelled` is set exactly on
scheduler cancellation (again with kill invoked and its retcode
recorded), and completion before the timeout yields the plain retcode
with both flags false and no kill. -/
theorem claim_C2_wait_proc (outcome : WaitOutcome) (kill_ret : Int) :
    ((wait_proc outcome kill_ret).1.had_timeout = true ↔
        outcome = .timedOut) ∧
    ((wait_proc outcome kill_ret).1.was_cancelled = true ↔
        outcome = .cancelled) ∧
    (outcome = .timedOut →
      (wait_proc outcome kill_ret).2 = true ∧
      (wait_proc outcome kill_ret).1.retcode = some kill_ret) ∧
    (outcome = .cancelled →
      (wait_proc outcome kill_ret).2 = true ∧
      (wait_proc outcome kill_ret).1.retcode = some kill_ret ∧
      (wait_proc outcome kill_ret).1.had_timeout = false) ∧
    (∀ r, outcome = .completed r →
      wait_proc outcome kill_ret =
        ({ retcode := some r, had_timeout := false,
           was_cancelled := false }, false)) := by
  cases outcome <;> simp [wait_proc]

theorem claim_C2_wait_proc_witness :
    (Subproc.wait_proc .timedOut 9).2 = true ∧
    (Subproc.wait_proc .timedOut 9).1.retcode = some 9 :=
  (claim_C2_wait_proc .timedOut 9).2.2.1 rfl

theorem exec_steps_ret (n v : Nat) (b : Bool) (rs : List Bool)
    (ar : List (Option AggregatedResult)) :
    exec (steps n (.ret v)) ⟨b :: rs, ar⟩ =
      (⟨(b || decide (0 < n)) :: rs, ar⟩, .ok v) := by
  induction n generalizing b with
  | zero => simp [steps, exec]
  | succ n ih => simp [steps, exec, markTop, ih]

theorem exec_steps_raise (n : Nat) (name : String) (er : ExecutionResult)
    (b : Bool) (rs : List Bool) (ar : List (Option AggregatedResult)) :
    exec (steps n (.raiseStep name er)) ⟨b :: rs, ar⟩ =
      (⟨true :: rs, ar⟩, .error (.stepFailure (mkStepFailure name er))) := by
  induction n generalizing b with
  | zero => simp [steps, exec, markTop]
  | succ n ih => simp [steps, exec, markTop, ih]

/-- C3: inside an active defer scope (the top aggregation slot holds an
aggregate `A`), a call to an `infer_composite_step`-wrapped function whose
body runs at least one step returns a deferred success recorded into `A`;
a body raising a StepFailure returns a deferred failure captured into `A`
instead of propagating; a body that neither runs a step nor raises
returns its value unchanged with `A` untouched; and a wrapped call nested
inside the body runs in the non-deferring sub-scope, so its failure is
attributed to the outer aggregate exactly once. -/
theorem claim_C3_infer_composite_step
    (A : AggregatedResult) (b : Bool) (rs : List Bool)
    (ar : List (Option AggregatedResult)) (n v : Nat) (name : String)
    (er : ExecutionResult) (k k1 : CallRes → Script) :
    (exec (.callWrapped (steps (n + 1) (.ret v)) k)
        ⟨b :: rs, some A :: ar⟩ =
      exec (k (.deferredOk v))
        ⟨b :: rs, some { A with successes := A.successes ++ [v] } :: ar⟩) ∧
    (exec (.callWrapped (steps n (.raiseStep name er)) k)
        ⟨b :: rs, some A :: ar⟩ =
      exec (k (.deferredErr (mkStepFailure name er)))
        ⟨b :: rs,
         some { A with failures := A.failures ++ [mkStepFailure name er] }
           :: ar⟩) ∧
    (exec (.callWrapped (.ret v) k) ⟨b :: rs, some A :: ar⟩ =
      exec (k (.plain v)) ⟨b :: rs, some A :: ar⟩) ∧
    (exec (.callWrapped (.callWrapped (steps n (.raiseStep name er)) k1) k)
        ⟨b :: rs, some A :: ar⟩ =
      exec (k (.deferredErr (mkStepFailure name er)))
        ⟨b :: rs,
         some { A with failures := A.failures ++ [mkStepFailure name er] }
           :: ar⟩) := by
  refine ⟨?_, ?_, ?_, ?_⟩
  · simp [exec, topAgg, pushFrame, popFrame, addSuccessTop, markTop,
      exec_steps_ret]
  · simp [exec, topAgg, pushFrame, popFrame, addFailureTop, markTop,
      exec_steps_raise]
  · simp [exec, topAgg, pushFrame, popFrame, markTop]
  · simp [exec, topAgg, pushFrame, popFrame, addFailureTop, markTop,
      exec_steps_raise]

/-- C4 counterexample: in scenario S6 (children A with retcode 1 and B
with retcode 2, no timeouts) the had_timeout property of the aggregate
property is Python None, not False; and in the variant where child B
timed out it is still None, not True — so the property is never `false
unless a child timed out` as the claim states. -/
theorem claim_C4_counterexample :
    exec s6Script initCtx =
      (⟨[true], [none]⟩, .error (.stepFailure s6Failure)) ∧
    had_timeout_prop s6Failure ≠ some false ∧
    exec s6TimeoutScript initCtx =
      (⟨[true], [none]⟩, .error (.stepFailure s6TimeoutFailure)) ∧
    had_timeout_prop s6TimeoutFailure ≠ some true := by
  refine ⟨rfl, by simp [had_timeout_prop, s6Failure], rfl,
    by simp [had_timeout_prop, s6TimeoutFailure]⟩

/-- C4 (amended): a defer_results scope capturing the two failing step
calls A (retcode 1) and B (retcode 2) raises on exit a single
AggregatedStepFailure whose reason names both A and B with their
retcodes; the had_timeout property of the aggregate exception is None (the
falsy null, since AggregatedResult carries no exc_result) regardless of
whether any deferred child timed out. -/
theorem claim_C4_defer_aggregate :
    exec s6Script initCtx =
      (⟨[true], [none]⟩, .error (.stepFailure s6Failure)) ∧
    s6Failure.reason = "2 out of 2 aggregated steps failed: " ++
      "Step(\x27A\x27) (retcode: 1), Step(\x27B\x27) (retcode: 2)" ∧
    had_timeout_prop s6Failure = none ∧
    exec s6TimeoutScript initCtx =
      (⟨[true], [none]⟩, .error (.stepFailure s6TimeoutFailure)) ∧
    had_timeout_prop s6TimeoutFailure = none :=
  ⟨rfl, rfl, rfl, rfl, rfl⟩

theorem popIf_pushStack {α : Type} (st : List α) (v : Option α) :
    popIf (pushStack st v).1 (pushStack st v).2 = st := by
  cases v <;> simp [pushStack, popIf]

theorem popIf_false {α : Type} (st : List α) : popIf st false = st := rfl

theorem popIf_true_cons {α : Type} (x : α) (st : List α) :
    popIf (x :: st) true = st := rfl

/-- C5: whatever arguments a context scope was entered with, leaving the
scope restores the whole context state (hence every observable) to
exactly its value from before entering; and a call passing only absent
values and empty dicts pushes no frame at all, leaving the stacks
untouched during the scope. -/
theorem claim_C5_context_restore (api : ContextApi) (args : CallArgs) :
    (∀ api1 p, context_call api args = .ok (api1, p) →
        context_exit api1 p = api) ∧
    (args.cwd = none → args.infra_steps = none →
      (args.env_prefixes = none ∨ args.env_prefixes = some []) →
      (args.env_suffixes = none ∨ args.env_suffixes = some []) →
      (args.env = none ∨ args.env = some []) →
      context_call api args = .ok (api, ⟨false, false, false, false, false⟩)) := by
  constructor
  · intro api1 p h
    unfold context_call at h
    cases henv : args.env with
    | none =>
        rw [henv] at h
        dsimp only at h
        simp only [Except.ok.injEq, Prod.mk.injEq] at h
        obtain ⟨h1, h2⟩ := h
        subst h1; subst h2
        simp only [context_exit, popIf_pushStack, popIf_false]
    | some e =>
        rw [henv] at h
        dsimp only at h
        by_cases hlen : 0 < e.length
        · rw [if_pos hlen] at h
          cases hm : envMerge (api.env.headD []) e with
          | ok newEnv =>
              rw [hm] at h
              simp only [Except.ok.injEq, Prod.mk.injEq] at h
              obtain ⟨h1, h2⟩ := h
              subst h1; subst h2
              simp only [context_exit, popIf_pushStack, popIf_true_cons]
          | error msg => rw [hm] at h; cases h
        · rw [if_neg hlen] at h
          simp only [Except.ok.injEq, Prod.mk.injEq] at h
          obtain ⟨h1, h2⟩ := h
          subst h1; subst h2
          simp only [context_exit, popIf_pushStack, popIf_false]
  · intro hc hi hp hs he
    rcases hp with hp | hp <;> rcases hs with hs | hs <;>
      rcases he with he | he <;>
      simp [context_call, hc, hi, hp, hs, he, pushStack]

theorem context_call_c5_concrete :
    ContextM.context_call ContextM.initApi
      { cwd := some "/x", env_prefixes := some [("PATH", ["/p"])],
        env := some [("A", some "b")], infra_steps := some true } =
      .ok (⟨[some "/x", none], [[("PATH", ["/p"])], []], [[]],
            [[("A", some "b")], []], [true, false]⟩,
           ⟨true, true, false, true, true⟩) := by
  rfl

theorem claim_C5_context_restore_witness :
    ContextM.context_exit
      ⟨[some "/x", none], [[("PATH", ["/p"])], []], [[]],
       [[("A", some "b")], []], [true, false]⟩
      ⟨true, true, false, true, true⟩ = ContextM.initApi ∧
    ContextM.context_call ContextM.initApi {} =
      .ok (ContextM.initApi, ⟨false, false, false, false, false⟩) :=
  ⟨(claim_C5_context_restore ContextM.initApi
      { cwd := some "/x", env_prefixes := some [("PATH", ["/p"])],
        env := some [("A", some "b")], infra_steps := some true }).1 _ _
      context_call_c5_concrete,
   (claim_C5_context_restore ContextM.initApi {}).2 rfl rfl
     (Or.inl rfl) (Or.inl rfl) (Or.inl rfl)⟩

theorem dictGet_dictSet_self {α : Type} (d : List (String × α)) (k : String)
    (v : α) : dictGet (dictSet d k v) k = some v := by
  induction d with
  | nil => simp [dictGet, dictSet]
  | cons kv rest ih =>
    obtain ⟨k1, v1⟩ := kv
    by_cases h : k1 = k <;> simp [dictGet, dictSet, h, ih]

theorem dictGet_dictSet_ne {α : Type} (d : List (String × α))
    (k k1 : String) (v : α) (h : k1 ≠ k) :
    dictGet (dictSet d k1 v) k = dictGet d k := by
  induction d with
  | nil => simp [dictGet, dictSet, h]
  | cons kv rest ih =>
    obtain ⟨k2, v2⟩ := kv
    by_cases h2 : k2 = k1
    · subst h2
      simp [dictGet, dictSet, h]
    · simp only [dictSet]
      rw [if_neg h2]
      by_cases h3 : k2 = k <;> simp [dictGet, h3, ih]

theorem mergePre_cons (acc : List (String × List String)) (kv rest) :
    mergePre acc (kv :: rest) =
      mergePre
        (if kv.2.isEmpty then acc
         else dictSet acc kv.1 (kv.2 ++ dictGetD acc kv.1 [])) rest := rfl

theorem mergeSuf_cons (acc : List (String × List String)) (kv rest) :
    mergeSuf acc (kv :: rest) =
      mergeSuf
        (if kv.2.isEmpty then acc
         else dictSet acc kv.1 (dictGetD acc kv.1 [] ++ kv.2)) rest := rfl

theorem mergePre_get_not_mem (ps : List (String × List String))
    (acc : List (String × List String)) (k : String)
    (h : k ∉ ps.map Prod.fst) :
    dictGet (mergePre acc ps) k = dictGet acc k := by
  induction ps generalizing acc with
  | nil => rfl
  | cons kv rest ih =>
    obtain ⟨k1, v1⟩ := kv
    simp only [List.map_cons, List.mem_cons] at h
    push_neg at h
    have hne : k1 ≠ k := fun hh => h.1 hh.symm
    rw [mergePre_cons]
    by_cases hv : v1.isEmpty
    · simp only [hv, if_true]
      exact ih acc h.2
    · simp only [hv, Bool.false_eq_true, if_false]
      rw [ih _ h.2]
      exact dictGet_dictSet_ne _ _ _ _ hne

theorem mergeSuf_get_not_mem (ss : List (String × List String))
    (acc : List (String × List String)) (k : String)
    (h : k ∉ ss.map Prod.fst) :
    dictGet (mergeSuf acc ss) k = dictGet acc k := by
  induction ss generalizing acc with
  | nil => rfl
  | cons kv rest ih =>
    obtain ⟨k1, v1⟩ := kv
    simp only [List.map_cons, List.mem_cons] at h
    push_neg at h
    have hne : k1 ≠ k := fun hh => h.1 hh.symm
    rw [mergeSuf_cons]
    by_cases hv : v1.isEmpty
    · simp only [hv, if_true]
      exact ih acc h.2
    · simp only [hv, Bool.false_eq_true, if_false]
      rw [ih _ h.2]
      exact dictGet_dictSet_ne _ _ _ _ hne

theorem mergePre_get_mem (ps : List (String × List String))
    (acc : List (String × List String)) (k : String) (v : List String)
    (hmem : (k, v) ∈ ps) (hv : v ≠ []) (hnd : (ps.map Prod.fst).Nodup) :
    dictGet (mergePre acc ps) k = some (v ++ dictGetD acc k []) := by
  induction ps generalizing acc with
  | nil => cases hmem
  | cons kv rest ih =>
    obtain ⟨k1, v1⟩ := kv
    simp only [List.map_cons, List.nodup_cons] at hnd
    rw [mergePre_cons]
    rcases List.mem_cons.mp hmem with heq | hrest
    · have hk1 : k1 = k := by cases heq; rfl
      have hv1 : v1 = v := by cases heq; rfl
      subst hk1; subst hv1
      have hvE : v1.isEmpty = false := by
        cases v1 with
        | nil => exact absurd rfl hv
        | cons a l => rfl
      simp only [hvE, Bool.false_eq_true, if_false]
      rw [mergePre_get_not_mem rest _ k1 hnd.1, dictGet_dictSet_self]
    · have hkrest : k ∈ rest.map Prod.fst :=
        List.mem_map.mpr ⟨(k, v), hrest, rfl⟩
      have hne : k1 ≠ k := fun hh => hnd.1 (hh ▸ hkrest)
      by_cases hv1 : v1.isEmpty
      · simp only [hv1, if_true]
        exact ih acc hrest hnd.2
      · simp only [hv1, Bool.false_eq_true, if_false]
        rw [ih _ hrest hnd.2]
        simp [dictGetD, dictGet_dictSet_ne _ _ _ _ hne]

theorem mergeSuf_get_mem (ss : List (String × List String))
    (acc : List (String × List String)) (k : String) (v : List String)
    (hmem : (k, v) ∈ ss) (hv : v ≠ []) (hnd : (ss.map Prod.fst).Nodup) :
    dictGet (mergeSuf acc ss) k = some (dictGetD acc k [] ++ v) := by
  induction ss generalizing acc with
  | nil => cases hmem
  | cons kv rest ih =>
    obtain ⟨k1, v1⟩ := kv
    simp only [List.map_cons, List.nodup_cons] at hnd
    rw [mergeSuf_cons]
    rcases List.mem_cons.mp hmem with heq | hrest
    · have hk1 : k1 = k := by cases heq; rfl
      have hv1 : v1 = v := by cases heq; rfl
      subst hk1; subst hv1
      have hvE : v1.isEmpty = false := by
        cases v1 with
        | nil => exact absurd rfl hv
        | cons a l => rfl
      simp only [hvE, Bool.false_eq_true, if_false]
      rw [mergeSuf_get_not_mem rest _ k1 hnd.1, dictGet_dictSet_self]
    · have hkrest : k ∈ rest.map Prod.fst :=
        List.mem_map.mpr ⟨(k, v), hrest, rfl⟩
      have hne : k1 ≠ k := fun hh => hnd.1 (hh ▸ hkrest)
      by_cases hv1 : v1.isEmpty
      · simp only [hv1, if_true]
        exact ih acc hrest hnd.2
      · simp only [hv1, Bool.false_eq_true, if_false]
        rw [ih _ hrest hnd.2]
        simp [dictGetD, dictGet_dictSet_ne _ _ _ _ hne]

/-- C6: for every context push whose env_prefixes argument maps `k` to a
non-empty sequence `v`, the observable env_prefixes entry for `k` inside
the scope is `v` concatenated in front of the previously-registered tuple
(new entries first); dually, an env_suffixes push appends the new values
after the previously-registered tuple. -/
theorem claim_C6_env_affix_merge (api : ContextApi)
    (ps ss : List (String × List String)) (k : String) (v : List String)
    (api1 api2 : ContextApi) (p1 p2 : PushedFrames) :
    (context_call api { env_prefixes := some ps } = .ok (api1, p1) →
      (k, v) ∈ ps → v ≠ [] → (ps.map Prod.fst).Nodup →
      dictGet (obs_env_prefixes api1) k =
        some (v ++ dictGetD (obs_env_prefixes api) k [])) ∧
    (context_call api { env_suffixes := some ss } = .ok (api2, p2) →
      (k, v) ∈ ss → v ≠ [] → (ss.map Prod.fst).Nodup →
      dictGet (obs_env_suffixes api2) k =
        some (dictGetD (obs_env_suffixes api) k [] ++ v)) := by
  constructor
  · intro h hmem hv hnd
    have hlen : 0 < ps.length := by
      cases ps with
      | nil => cases hmem
      | cons a l => simp
    unfold context_call at h
    dsimp only at h
    rw [if_pos hlen] at h
    simp only [pushStack, Except.ok.injEq, Prod.mk.injEq] at h
    obtain ⟨h1, _⟩ := h
    subst h1
    simpa [obs_env_prefixes] using
      mergePre_get_mem ps (api.env_prefixes.headD []) k v hmem hv hnd
  · intro h hmem hv hnd
    have hlen : 0 < ss.length := by
      cases ss with
      | nil => cases hmem
      | cons a l => simp
    unfold context_call at h
    dsimp only at h
    rw [if_pos hlen] at h
    simp only [pushStack, Except.ok.injEq, Prod.mk.injEq] at h
    obtain ⟨h1, _⟩ := h
    subst h1
    simpa [obs_env_suffixes] using
      mergeSuf_get_mem ss (api.env_suffixes.headD []) k v hmem hv hnd

theorem claim_C6_env_affix_merge_witness :
    dictGet
      (ContextM.obs_env_prefixes
        ⟨[none], [[("PATH", ["/new", "/old"])], [("PATH", ["/old"])]], [[]],
         [[]], [false]⟩) "PATH" = some ["/new", "/old"] ∧
    dictGet
      (ContextM.obs_env_suffixes
        ⟨[none], [[]], [[("PATH", ["/old", "/new"])], [("PATH", ["/old"])]],
         [[]], [false]⟩) "PATH" = some ["/old", "/new"] := by
  refine ⟨?_, ?_⟩
  · have := (claim_C6_env_affix_merge
      ⟨[none], [[("PATH", ["/old"])]], [[]], [[]], [false]⟩
      [("PATH", ["/new"])] [] "PATH" ["/new"]
      ⟨[none], [[("PATH", ["/new", "/old"])], [("PATH", ["/old"])]], [[]],
       [[]], [false]⟩ ⟨[none], [[]], [[]], [[]], [false]⟩
      ⟨false, true, false, false, false⟩
      ⟨false, false, false, false, false⟩).1
      rfl (by simp) (by simp) (by simp)
    simp [ContextM.obs_env_prefixes, dictGet, dictGetD] at this
    simp [ContextM.obs_env_prefixes, dictGet, dictGetD, this]
  · have := (claim_C6_env_affix_merge
      ⟨[none], [[]], [[("PATH", ["/old"])]], [[]], [false]⟩
      [] [("PATH", ["/new"])] "PATH" ["/new"]
      ⟨[none], [[]], [[]], [[]], [false]⟩
      ⟨[none], [[]], [[("PATH", ["/old", "/new"])], [("PATH", ["/old"])]],
       [[]], [false]⟩
      ⟨false, false, false, false, false⟩
      ⟨false, false, true, false, false⟩).2
      rfl (by simp) (by simp) (by simp)
    simp [ContextM.obs_env_suffixes, dictGet, dictGetD] at this
    simp [ContextM.obs_env_suffixes, dictGet, dictGetD, this]

theorem envMerge_error_iff (e : List (String × Option String))
    (acc : List (String × Option String)) :
    (∃ msg, envMerge acc e = .error msg) ↔
      ∃ k s, (k, some s) ∈ e ∧ env_value_format_ok s = false := by
  induction e generalizing acc with
  | nil => simp [envMerge]
  | cons kv rest ih =>
    obtain ⟨k1, v1⟩ := kv
    cases v1 with
    | none =>
        simp only [envMerge]
        rw [ih]
        constructor
        · rintro ⟨k, s, hmem, hbad⟩
          exact ⟨k, s, List.mem_cons_of_mem _ hmem, hbad⟩
        · rintro ⟨k, s, hmem, hbad⟩
          rcases List.mem_cons.mp hmem with heq | hmem2
          · cases heq
          · exact ⟨k, s, hmem2, hbad⟩
    | some s1 =>
        by_cases hok : env_value_format_ok s1
        · simp only [envMerge, hok, if_true]
          rw [ih]
          constructor
          · rintro ⟨k, s, hmem, hbad⟩
            exact ⟨k, s, List.mem_cons_of_mem _ hmem, hbad⟩
          · rintro ⟨k, s, hmem, hbad⟩
            rcases List.mem_cons.mp hmem with heq | hmem2
            · have hs : s = s1 := by
                have := congrArg Prod.snd heq
                simpa using this
              rw [hs] at hbad
              exact absurd hok (by simp [hbad])
            · exact ⟨k, s, hmem2, hbad⟩
        · simp only [envMerge, hok, Bool.false_eq_true, if_false]
          constructor
          · intro _
            exact ⟨k1, s1, List.mem_cons_self _ _, by simpa using hok⟩
          · intro _
            exact ⟨_, rfl⟩

theorem envMerge_ok_eq (e : List (String × Option String))
    (acc m : List (String × Option String)) :
    envMerge acc e = .ok m →
    m = e.foldl (fun a kv => dictSet a kv.1 kv.2) acc := by
  induction e generalizing acc with
  | nil =>
      intro h
      simp only [envMerge, Except.ok.injEq] at h
      simp [h.symm]
  | cons kv rest ih =>
    obtain ⟨k1, v1⟩ := kv
    cases v1 with
    | none =>
        intro h
        simpa using ih _ h
    | some s1 =>
        intro h
        by_cases hok : env_value_format_ok s1
        · simp only [envMerge, hok, if_true] at h
          simpa using ih _ h
        · simp [envMerge, hok] at h

/-- C7: pushing an env mapping validates every string value at push time
— a value whose formatting against a mapping fails (in particular one
with a sequential interpolation such as `%s` or `%format`) raises a
ValueError immediately; when all values pass (dictionary-style
`%(NAME)s` references and doubled `%%` do), the observable env inside the
scope is the parent env merged with the new entries, None values included
as deletions. -/
theorem claim_C7_env_validation (api : ContextApi)
    (e : List (String × Option String)) :
    ((∃ k s, (k, some s) ∈ e ∧ env_value_format_ok s = false) →
      ∃ msg, context_call api { env := some e } = .error msg) ∧
    (∀ api1 p, context_call api { env := some e } = .ok (api1, p) →
      obs_env api1 =
        e.foldl (fun a kv => dictSet a kv.1 kv.2) (obs_env api)) ∧
    (env_value_format_ok "%s" = false ∧
     env_value_format_ok "%format" = false ∧
     env_value_format_ok "/path/to/my/stuff:%(PATH)s" = true ∧
     env_value_format_ok "100%%" = true) := by
  refine ⟨?_, ?_, rfl, rfl, rfl, rfl⟩
  · rintro ⟨k, s, hmem, hbad⟩
    have hlen : 0 < e.length := by
      cases e with
      | nil => cases hmem
      | cons a l => simp
    obtain ⟨msg, hm⟩ :=
      (envMerge_error_iff e (api.env.headD [])).mpr ⟨k, s, hmem, hbad⟩
    refine ⟨msg, ?_⟩
    unfold context_call
    dsimp only
    rw [if_pos hlen, hm]
  · intro api1 p h
    unfold context_call at h
    dsimp only at h
    by_cases hlen : 0 < e.length
    · rw [if_pos hlen] at h
      cases hm : envMerge (api.env.headD []) e with
      | ok newEnv =>
          rw [hm] at h
          simp only [Except.ok.injEq, Prod.mk.injEq] at h
          obtain ⟨h1, _⟩ := h
          subst h1
          simpa [obs_env] using envMerge_ok_eq e _ _ hm
      | error msg => rw [hm] at h; cases h
    · rw [if_neg hlen] at h
      simp only [Except.ok.injEq, Prod.mk.injEq] at h
      obtain ⟨h1, _⟩ := h
      subst h1
      have he : e = [] := List.length_eq_zero.mp (Nat.eq_zero_of_not_pos hlen)
      subst he
      simp [obs_env]

theorem claim_C7_env_validation_witness :
    (∃ msg, ContextM.context_call ContextM.initApi
        { env := some [("X", some "%s")] } = .error msg) ∧
    ContextM.obs_env
      ⟨[none], [[]], [[]], [[("A", some "x"), ("B", none)], []], [false]⟩ =
      [("A", some "x"), ("B", none)] := by
  constructor
  · exact (claim_C7_env_validation ContextM.initApi [("X", some "%s")]).1
      ⟨"X", "%s", by simp, rfl⟩
  · have happ := (claim_C7_env_validation ContextM.initApi
      [("A", some "x"), ("B", none)]).2.1
      ⟨[none], [[]], [[]], [[("A", some "x"), ("B", none)], []], [false]⟩
      ⟨false, false, false, true, false⟩ rfl
    exact happ.trans rfl

theorem pyInt_lt_100 (q : ℚ) (h : q < 100) : pyInt q < 100 := by
  unfold pyInt
  split
  · rename_i hneg
    have h0 : (0 : ℤ) ≤ (-q).floor := by
      rw [Rat.le_floor]
      push_cast
      linarith
    omega
  · rename_i hpos
    by_contra hge
    push_neg at hge
    have : ((100 : ℤ) : ℚ) ≤ q := Rat.le_floor.mp hge
    push_cast at this
    linarith

theorem pyInt_100 : pyInt (100 : ℚ) = 100 := by decide

theorem covUpdate_cons (a : Shard) (fb : String × List Nat)
    (rest : Shard) :
    covUpdate a (fb :: rest) =
      covUpdate (dictSet a fb.1 (lineUnion (dictGetD a fb.1 []) fb.2))
        rest := rfl

theorem dictGet_eq_none_of_not_mem {α : Type} (d : List (String × α))
    (k : String) (h : k ∉ d.map Prod.fst) : dictGet d k = none := by
  induction d with
  | nil => rfl
  | cons kv rest ih =>
    obtain ⟨k1, v1⟩ := kv
    simp only [List.map_cons, List.mem_cons] at h
    push_neg at h
    have hne : k1 ≠ k := fun hh => h.1 hh.symm
    simp [dictGet, hne, ih h.2]

theorem mem_lineUnion (xs ys : List Nat) (n : Nat) :
    n ∈ lineUnion xs ys ↔ n ∈ xs ∨ n ∈ ys := by
  simp only [lineUnion, List.mem_append, List.mem_filter,
    Bool.not_eq_true']
  by_cases hx : n ∈ xs
  · simp [hx]
  · simp [hx, List.elem_iff]

theorem lines_covUpdate (a b : Shard) (hb : keysNodup b) (f : String)
    (n : Nat) :
    n ∈ lines (covUpdate a b) f ↔ n ∈ lines a f ∨ n ∈ lines b f := by
  induction b generalizing a with
  | nil => simp [covUpdate, lines, dictGetD, dictGet]
  | cons fb rest ih =>
    obtain ⟨f1, ls1⟩ := fb
    have hb' : keysNodup rest := (List.nodup_cons.mp hb).2
    have hf1 : f1 ∉ rest.map Prod.fst := (List.nodup_cons.mp hb).1
    rw [covUpdate_cons, ih _ hb']
    by_cases hf : f1 = f
    · subst hf
      have h1 : lines (dictSet a f1 (lineUnion (dictGetD a f1 []) ls1)) f1 =
          lineUnion (dictGetD a f1 []) ls1 := by
        simp [lines, dictGetD, dictGet_dictSet_self]
      have h2 : lines rest f1 = [] := by
        simp [lines, dictGetD, dictGet_eq_none_of_not_mem rest f1 hf1]
      have h3 : lines ((f1, ls1) :: rest) f1 = ls1 := by
        simp [lines, dictGetD, dictGet]
      rw [h1, h2, h3]
      rw [mem_lineUnion]
      simp [lines, dictGetD]
    · have h1 : lines (dictSet a f1 (lineUnion (dictGetD a f1 []) ls1)) f =
          lines a f := by
        simp [lines, dictGetD, dictGet_dictSet_ne _ _ _ _ hf]
      have h3 : lines ((f1, ls1) :: rest) f = lines rest f := by
        simp [lines, dictGetD, dictGet, hf]
      rw [h1, h3]

theorem lines_foldl_covUpdate (shards : List Shard) (a : Shard)
    (h : ∀ s ∈ shards, keysNodup s) (f : String) (n : Nat) :
    n ∈ lines (shards.foldl covUpdate a) f ↔
      n ∈ lines a f ∨ ∃ s ∈ shards, n ∈ lines s f := by
  induction shards generalizing a with
  | nil => simp
  | cons s rest ih =>
    rw [List.foldl_cons,
      ih _ (fun t ht => h t (List.mem_cons_of_mem _ ht)),
      lines_covUpdate a s (h s (List.mem_cons_self _ _))]
    simp only [List.mem_cons]
    constructor
    · rintro ((ha | hs) | ⟨t, ht, hn⟩)
      · exact Or.inl ha
      · exact Or.inr ⟨s, Or.inl rfl, hs⟩
      · exact Or.inr ⟨t, Or.inr ht, hn⟩
    · rintro (ha | ⟨t, (rfl | ht), hn⟩)
      · exact Or.inl (Or.inl ha)
      · exact Or.inl (Or.inr hn)
      · exact Or.inr ⟨t, ht, hn⟩

/-- C8: when the detail buffer is empty and there are no uncovered
modules or unused expectation files, a merged coverage percent of exactly
100 lets the final report succeed (no SystemExit, no missing-line
report); any coverage below 100 percent makes the final report fail the
run and print the missing-line report; and merging the per-worker
coverage shards combines line hits by union. -/
theorem claim_C8_coverage_gate :
    (∀ c : CovData, c.measured = true → c.percent = 100 →
      (final_report false (some c) [] []).system_exit = false ∧
      (final_report false (some c) [] []).printed_missing = false) ∧
    (∀ (c : CovData) (errb : Bool) (unc unu : List String),
      c.measured = true → c.percent < 100 →
      (final_report errb (some c) unc unu).system_exit = true ∧
      (final_report errb (some c) unc unu).printed_missing = true) ∧
    (∀ (shards : List Shard) (f : String) (n : Nat),
      (∀ s ∈ shards, keysNodup s) →
      (n ∈ lines (mergeShards shards) f ↔ ∃ s ∈ shards, n ∈ lines s f)) := by
  refine ⟨?_, ?_, ?_⟩
  · intro c hm hp
    simp [final_report, hm, hp, pyInt_100]
  · intro c errb unc unu hm hlt
    have hne : pyInt c.percent ≠ 100 :=
      ne_of_lt (pyInt_lt_100 c.percent hlt)
    simp [final_report, hm, hne]
  · intro shards f n h
    rw [mergeShards, lines_foldl_covUpdate shards [] h]
    simp [lines, dictGetD, dictGet]

theorem claim_C8_coverage_gate_witness :
    (final_report false (some ⟨true, 100⟩) [] []).system_exit = false ∧
    (final_report false (some ⟨true, (199 : ℚ) / 2⟩) [] []).system_exit
      = true ∧
    (3 : Nat) ∈ lines
      (mergeShards [[("a.py", [1])], [("a.py", [3])]]) "a.py" := by
  refine ⟨(claim_C8_coverage_gate.1 ⟨true, 100⟩ rfl rfl).1,
    (claim_C8_coverage_gate.2.1 ⟨true, (199 : ℚ) / 2⟩ false [] [] rfl
      (by norm_num)).1,
    ?_⟩
  refine (claim_C8_coverage_gate.2.2 [[("a.py", [1])], [("a.py", [3])]]
    "a.py" 3 ?_).mpr ⟨[("a.py", [3])], by simp, by simp [lines, dictGetD, dictGet]⟩
  intro s hs
  rcases List.mem_cons.mp hs with rfl | hs2
  · simp [keysNodup]
  · rcases List.mem_singleton.mp hs2 with rfl
    simp [keysNodup]

/-- C9 counterexample: two tests with the same name (or two names sharing
an expectation file) make `_push_tests` raise a ValueError that
propagates out, aborting the run — it is not surfaced as a per-test
bad_test outcome, and the tests of the second recipe are never pushed (the
whole call yields the error instead of a description queue). -/
theorem claim_C9_counterexample :
    push_tests [("r1", [⟨"a", "fa"⟩, ⟨"a", "fa"⟩]), ("r2", [⟨"t", "ft"⟩])] =
      .error (.duplicate_name "a") ∧
    push_tests [("r1", [⟨"a", "fa"⟩, ⟨"b", "fa"⟩]), ("r2", [⟨"t", "ft"⟩])] =
      .error (.duplicate_file "b" "a" "fa") ∧
    pushErrMsg (.duplicate_name "a") =
      "Emitted test with duplicate name \x27a\x27" :=
  ⟨rfl, rfl, rfl⟩

/-- C9 (amended): when gen_tests of a recipe emits two test cases with the
same name, or two distinct names mapping to the same expectation file,
`_push_tests` raises a ValueError (duplicate-name when the names are
equal, otherwise duplicate-file); the error propagates and aborts the
run: the whole push returns the error, so no description of any recipe is
enqueued and no bad_test outcome is produced. -/
theorem claim_C9_duplicates_abort :
    (∀ name ef name2 : String,
      push_recipe_tests [] [] [⟨name, ef⟩, ⟨name2, ef⟩] =
        .error (if name = name2 then .duplicate_name name2
                else .duplicate_file name2 name ef)) ∧
    (∀ (rname : String) (tests : List TestCase)
        (rest : List (String × List TestCase)) (e : PushErr),
      push_recipe_tests [] [] tests = .error e →
      push_tests ((rname, tests) :: rest) = .error e) := by
  constructor
  · intro name ef name2
    by_cases h : name = name2 <;>
      simp [push_recipe_tests, dictGet, dictSet, h]
  · intro rname tests rest e h
    simp [push_tests, h, Bind.bind, Except.bind]

theorem claim_C9_duplicates_abort_witness :
    TestReport.push_recipe_tests [] [] [⟨"a", "fa"⟩, ⟨"a", "fa"⟩] =
      .error (.duplicate_name "a") ∧
    TestReport.push_tests
      [("r1", [⟨"x", "f"⟩, ⟨"y", "f"⟩]), ("r2", [⟨"t", "ft"⟩])] =
      .error (.duplicate_file "y" "x" "f") := by
  constructor
  · have h := claim_C9_duplicates_abort.1 "a" "fa" "a"
    simpa using h
  · refine claim_C9_duplicates_abort.2 "r1" [⟨"x", "f"⟩, ⟨"y", "f"⟩]
      [("r2", [⟨"t", "ft"⟩])] (.duplicate_file "y" "x" "f") ?_
    have h := claim_C9_duplicates_abort.1 "x" "f" "y"
    simpa using h

/-- C10 counterexample: over the sorted prefix index
`["/a", "/a/x", "/b"]` and target `"/a/y"` with separator `"/"`, the
entry `"/a"` qualifies (it is a prefix of the target immediately followed
by the separator), yet `find_longest_prefix` returns `(None, None)` —
refuting the claim that `(None, None)` is returned exactly when no entry
qualifies. -/
theorem claim_C10_counterexample :
    find_longest_prefix [("/a", 1), ("/a/x", 2), ("/b", 3)] "/a/y" "/" =
      none ∧
    ("/a", 1) ∈ [("/a", 1), ("/a/x", 2), ("/b", 3)] ∧
    qualifies "/a" "/a/y" "/" ∧
    ("/a".data < "/a/x".data ∧ "/a/x".data < "/b".data) := by
  refine ⟨rfl, by simp, Or.inr rfl, by decide⟩

theorem lex_lt_of_proper_prefix {a b : List Char} (hp : a <+: b)
    (hl : a.length < b.length) : a < b := by
  induction a generalizing b with
  | nil =>
    cases b with
    | nil => simp at hl
    | cons y bs => exact List.Lex.nil
  | cons x as ih =>
    cases b with
    | nil => simp at hl
    | cons y bs =>
      rw [List.cons_prefix_cons] at hp
      obtain ⟨rfl, hp2⟩ := hp
      exact List.Lex.cons (ih hp2 (by simpa using hl))

theorem sorted_get_lt_of_lt_countP (l : List String) (x : String)
    (hs : l.Pairwise (fun a b => a.data < b.data)) :
    ∀ (j : Nat) (hj : j < l.length),
      j < l.countP (fun s => decide (s.data < x.data)) →
      (l.get ⟨j, hj⟩).data < x.data := by
  induction l with
  | nil => intro j hj _; simp at hj
  | cons a t ih =>
    rw [List.pairwise_cons] at hs
    intro j hj hcnt
    cases j with
    | zero =>
      show a.data < x.data
      by_cases hpa : a.data < x.data
      · exact hpa
      · rw [List.countP_cons] at hcnt
        simp only [hpa, decide_eq_true_eq, if_false, decide_eq_false_iff_not,
          Nat.add_zero] at hcnt
        have hcnt2 : 0 < t.countP fun s => decide (s.data < x.data) := by
          omega
        obtain ⟨b, hb, hpb⟩ := List.countP_pos_iff.mp hcnt2
        exact absurd
          (IsTrans.trans _ _ _ (hs.1 b hb) (of_decide_eq_true hpb)) hpa
    | succ j =>
      rw [List.countP_cons] at hcnt
      have hj2 : j < t.length := Nat.lt_of_succ_lt_succ hj
      have hcnt2 : j < t.countP fun s => decide (s.data < x.data) := by
        by_cases hpa : a.data < x.data <;> simp [hpa] at hcnt <;> omega
      exact ih hs.2 j hj2 hcnt2

theorem sorted_not_lt_of_countP_le (l : List String) (x : String)
    (hs : l.Pairwise (fun a b => a.data < b.data)) :
    ∀ (j : Nat) (hj : j < l.length),
      l.countP (fun s => decide (s.data < x.data)) ≤ j →
      ¬ (l.get ⟨j, hj⟩).data < x.data := by
  induction l with
  | nil => intro j hj _; simp at hj
  | cons a t ih =>
    rw [List.pairwise_cons] at hs
    intro j hj hcnt
    cases j with
    | zero =>
      intro hax
      have hd : decide (a.data < x.data) = true := decide_eq_true hax
      rw [List.countP_cons, hd, if_pos rfl] at hcnt
      omega
    | succ j =>
      rw [List.countP_cons] at hcnt
      have hj2 : j < t.length := Nat.lt_of_succ_lt_succ hj
      by_cases hpa : a.data < x.data
      · have hcnt2 : t.countP (fun s => decide (s.data < x.data)) ≤ j := by
          simp [hpa] at hcnt
          omega
        exact ih hs.2 j hj2 hcnt2
      · have hzero : t.countP (fun s => decide (s.data < x.data)) = 0 := by
          refine List.countP_eq_zero.mpr ?_
          intro b hb hpb
          exact hpa
            (IsTrans.trans _ _ _ (hs.1 b hb) (of_decide_eq_true hpb))
        exact ih hs.2 j hj2 (hzero ▸ Nat.zero_le j)

/-- C10 (amended): any pair returned by `find_longest_prefix` is an index
entry whose string either equals the target or is a prefix of the target
immediately followed by the separator, and on a sorted index with a
non-empty separator it is the longest such entry; but `(None, None)` can
also be returned when a qualifying entry exists, because only the bisect
position and its immediate predecessor are examined. -/
theorem claim_C10_find_longest_prefix_sound
    (pairs : List (String × Nat)) (target sep s : String) (p : Nat) :
    ( find_longest_prefix pairs target sep = some (s, p) →
      (s, p) ∈ pairs ∧ qualifies s target sep) ∧
    ((pairs.map Prod.fst).Pairwise (fun a b => a.data < b.data) →
      sep ≠ "" →
      find_longest_prefix pairs target sep = some (s, p) →
      ∀ e ∈ pairs, qualifies e.1 target sep →
        e.1.data.length ≤ s.data.length) := by
  constructor
  · intro h
    unfold find_longest_prefix at h
    dsimp only at h
    split at h
    · cases h
    · rename_i sPath path hidx
      split at h
      · rename_i ht
        obtain ⟨h1, h2⟩ := Prod.mk.inj (Option.some.inj h)
        subst h1; subst h2
        exact ⟨List.getElem?_mem hidx, Or.inl ht.symm⟩
      · split at h
        · split at h
          · cases h
          · rename_i sPath1 path1 hidx1
            split at h
            · rename_i hpre
              obtain ⟨h1, h2⟩ := Prod.mk.inj (Option.some.inj h)
              subst h1; subst h2
              exact ⟨List.getElem?_mem hidx1, Or.inr hpre⟩
            · cases h
        · cases h
  · intro hsorted hsep h e he hq
    have hsepd : sep.data ≠ [] := by
      intro hd
      apply hsep
      cases sep
      simp_all
    have hseplen : 0 < sep.data.length := List.length_pos.mpr hsepd
    unfold find_longest_prefix at h
    dsimp only at h
    split at h
    · cases h
    · rename_i sPath path hidx
      split at h
      · rename_i ht
        obtain ⟨h1, h2⟩ := Prod.mk.inj (Option.some.inj h)
        subst h1; subst h2
        rcases hq with hqe | hqp
        · rw [hqe, ← ht]
        · have hpre := List.isPrefixOf_iff_prefix.mp hqp
          have hlen : e.1.data.length + sep.data.length ≤
              target.data.length := by
            have hl := hpre.length_le
            rw [show (e.1 ++ sep).data = e.1.data ++ sep.data from rfl,
              List.length_append] at hl
            exact hl
          rw [← ht]
          omega
      · rename_i ht
        split at h
        · rename_i hpos
          split at h
          · cases h
          · rename_i sPath1 path1 hidx1
            split at h
            · rename_i hpre1
              obtain ⟨h1, h2⟩ := Prod.mk.inj (Option.some.inj h)
              subst h1; subst h2
              -- abbreviations for the index and the string list
              obtain ⟨hlt0, hget0⟩ := List.getElem?_eq_some.mp
                (show (pairs.map Prod.fst)[bisect_left
                    (pairs.map Prod.fst) target]? = some sPath by
                  rw [List.getElem?_map, hidx]; rfl)
              obtain ⟨hlt1, hget1⟩ := List.getElem?_eq_some.mp
                (show (pairs.map Prod.fst)[bisect_left
                    (pairs.map Prod.fst) target - 1]? = some sPath1 by
                  rw [List.getElem?_map, hidx1]; rfl)
              have hcount : bisect_left (pairs.map Prod.fst) target =
                  (pairs.map Prod.fst).countP
                    (fun q => decide (q.data < target.data)) := rfl
              -- the entry at the bisect position is not below the target
              have hF2 : ¬ sPath.data < target.data := by
                have := sorted_not_lt_of_countP_le (pairs.map Prod.fst)
                  target hsorted (bisect_left (pairs.map Prod.fst) target)
                  hlt0 (le_of_eq hcount)
                rwa [List.get_eq_getElem, hget0] at this
              -- the predecessor is a prefix of the target
              have hs1pre : sPath1.data <+: target.data :=
                (List.prefix_append sPath1.data sep.data).trans
                  (List.isPrefixOf_iff_prefix.mp hpre1)
              rcases hq with hqe | hqp
              · -- a qualifying entry equal to the target cannot be in the
                -- sorted index at all in this branch
                exfalso
                have hmem : e.1 ∈ pairs.map Prod.fst :=
                  List.mem_map_of_mem Prod.fst he
                obtain ⟨⟨j, hj⟩, hgetj⟩ := List.mem_iff_get.mp hmem
                by_cases hjlt : j < (pairs.map Prod.fst).countP
                    (fun q => decide (q.data < target.data))
                · have hlt := sorted_get_lt_of_lt_countP
                    (pairs.map Prod.fst) target hsorted j hj hjlt
                  rw [hgetj, hqe] at hlt
                  exact (IsAsymm.asymm _ _ hlt) hlt
                · have hje : bisect_left (pairs.map Prod.fst) target ≤ j := by
                    rw [hcount]
                    omega
                  rcases Nat.eq_or_lt_of_le hje with heq | hltj
                  · apply ht
                    rw [← hqe, ← hgetj, List.get_eq_getElem]
                    simp only [← heq]
                    rw [hget0]
                  · have hrel := List.pairwise_iff_get.mp hsorted
                      ⟨bisect_left (pairs.map Prod.fst) target, hlt0⟩
                      ⟨j, hj⟩ (Fin.mk_lt_mk.mpr hltj)
                    rw [hgetj, hqe, List.get_eq_getElem, hget0] at hrel
                    exact hF2 hrel
              · -- a qualifying sep-prefix entry is never longer than the
                -- returned predecessor
                have hepre : e.1.data <+: target.data :=
                  (List.prefix_append e.1.data sep.data).trans
                    (List.isPrefixOf_iff_prefix.mp hqp)
                by_contra hgt
                push_neg at hgt
                have hs1e : sPath1.data <+: e.1.data :=
                  List.prefix_of_prefix_length_le hs1pre hepre
                    (Nat.le_of_lt hgt)
                have hlt_s1e : sPath1.data < e.1.data :=
                  lex_lt_of_proper_prefix hs1e hgt
                have helen : e.1.data.length + sep.data.length ≤
                    target.data.length := by
                  have hl := (List.isPrefixOf_iff_prefix.mp hqp).length_le
                  rw [show (e.1 ++ sep).data = e.1.data ++ sep.data from rfl,
                    List.length_append] at hl
                  exact hl
                have hlt_et : e.1.data < target.data :=
                  lex_lt_of_proper_prefix hepre (by omega)
                have hmem : e.1 ∈ pairs.map Prod.fst :=
                  List.mem_map_of_mem Prod.fst he
                obtain ⟨⟨j, hj⟩, hgetj⟩ := List.mem_iff_get.mp hmem
                have hjlt : j < (pairs.map Prod.fst).countP
                    (fun q => decide (q.data < target.data)) := by
                  by_contra hge
                  refine sorted_not_lt_of_countP_le (pairs.map Prod.fst)
                    target hsorted j hj (Nat.le_of_not_lt hge) ?_
                  rw [hgetj]
                  exact hlt_et
                have hjne : j ≠ bisect_left (pairs.map Prod.fst) target - 1 := by
                  intro hj1
                  have hgj : e.1 = sPath1 := by
                    rw [← hgetj, List.get_eq_getElem]
                    simp only [hj1]
                    rw [hget1]
                  rw [hgj] at hlt_s1e
                  exact (IsAsymm.asymm _ _ hlt_s1e) hlt_s1e
                have hjlt1 : j < bisect_left (pairs.map Prod.fst) target - 1 := by
                  rw [hcount] at hpos hjne ⊢
                  omega
                have hrel := List.pairwise_iff_get.mp hsorted ⟨j, hj⟩
                  ⟨bisect_left (pairs.map Prod.fst) target - 1, hlt1⟩
                  (Fin.mk_lt_mk.mpr hjlt1)
                rw [hgetj, List.get_eq_getElem, hget1] at hrel
                exact (IsAsymm.asymm _ _ hrel) hlt_s1e
            · cases h
        · cases h

theorem claim_C10_find_longest_prefix_sound_witness :
    (("/a", 1) ∈ [("/a", (1 : Nat)), ("/b", 2)] ∧
      qualifies "/a" "/a/z" "/") ∧
    (∀ e ∈ [("/a", (1 : Nat)), ("/b", 2)], qualifies e.1 "/a/z" "/" →
      e.1.data.length ≤ "/a".data.length) :=
  ⟨(claim_C10_find_longest_prefix_sound [("/a", 1), ("/b", 2)] "/a/z" "/"
      "/a" 1).1 rfl,
   (claim_C10_find_longest_prefix_sound [("/a", 1), ("/b", 2)] "/a/z" "/"
      "/a" 1).2 (by simp [List.pairwise_cons]; decide) (by decide) rfl⟩
